import Mathlib

/-!
Shallow embedding of the validation engine specified in spec.md and
exercised by src/tests/test_validators.py.  The repository ships only the
tests and documentation examples of the engine; the engine itself is not
present under src/.  Every definition below is therefore modelled from the
spec (sections 3, 4.1-4.5, 7) with the concrete behaviour pinned down by
the assertions of the tests.
-/

namespace Spec2Proof

/-- Modelled from the spec: the value of an IEEE double as the engine's
coercers observe it — either a finite rational (carried as a
numerator/denominator pair, denominator nonzero for well-formed values),
or NaN, or ±Infinity.  (The test literal 2.2250738585072011e308 exceeds
the largest finite double, so the coercer already receives positive
Infinity for it.) -/
inductive FVal where
  | finite (num : Int) (den : Nat)
  | nan
  | inf
  | ninf
deriving DecidableEq, Repr

/-- Modelled from the spec: §3 RawValue — a dynamically typed value arriving
from outside.  Variants follow the spec's list (null, boolean, integer,
float, string, ordered sequence) plus a set variant, which the coercion
table of §4.2 ("any sequence or set") and the frozenset tests require.
Floats are carried as an `FVal`; byte-sequences and mappings are
not needed by any claim and are omitted. -/
inductive Raw where
  | null
  | bool (b : Bool)
  | int (n : Int)
  | float (f : FVal)
  | str (s : String)
  | seq (xs : List Raw)
  | set (xs : List Raw)

/-- Modelled from the spec: §3/§6 ValidationError — error kind tag, field
path, human message, echoed offending input, optional structured context
(the hook's message, exposed as `ctx.error`). -/
structure VError where
  type : String
  loc : List String
  msg : String
  input : Raw
  ctx : Option String

/-- Modelled from the spec: result of one type coercer before the pipeline
attaches the field path — the error kind, message and offending input. -/
structure CErr where
  type : String
  msg : String
  input : Raw

/-- Modelled from the spec: §3 FieldSpec type descriptors — the declared
types exercised by the claims (int, str, Optional[str], List[int],
Tuple[int,int,int], FrozenSet[int]) plus open type variables of generic
models (§4.1), resolved by binding before validation. -/
inductive FType where
  | tInt
  | tStr
  | tOptStr
  | tListInt
  | tTupleInt3
  | tFrozenSetInt
  | tVar (name : String)
deriving DecidableEq, Repr

/-- Accumulate the decimal value of a digit list; `none` on the first
non-digit character. -/
def parseNatAux : List Char → Nat → Option Nat
  | [], acc => some acc
  | c :: rest, acc =>
      if '0' ≤ c ∧ c ≤ '9' then parseNatAux rest (acc * 10 + (c.toNat - '0'.toNat))
      else none

/-- Modelled from the spec: §4.2 "numeric string" — an optional minus sign
followed by one or more decimal digits. -/
def parseIntStr (s : String) : Option Int :=
  match s.data with
  | [] => none
  | '-' :: rest =>
      match rest with
      | [] => none
      | _ => (parseNatAux rest 0).map fun n => -(n : Int)
  | cs => (parseNatAux cs 0).map fun n => (n : Int)

/-- Modelled from the spec: §4.2 integer coercer.  Non-strict accepts int,
bool (0/1), finite float with zero fractional part, and numeric string;
strict accepts int only.  NaN/Infinity (and a degenerate zero-denominator
float) fail with `finite_number` regardless of strictness; a float with a
nonzero fractional part fails with `int_from_float`; an unparsable string
with `int_parsing`. -/
def coerceInt (strict : Bool) (v : Raw) : Except CErr Raw :=
  match v with
  | .int n => .ok (.int n)
  | .float .nan =>
      .error ⟨"finite_number", "Input should be a finite number", v⟩
  | .float .inf =>
      .error ⟨"finite_number", "Input should be a finite number", v⟩
  | .float .ninf =>
      .error ⟨"finite_number", "Input should be a finite number", v⟩
  | .float (.finite num den) =>
      if den = 0 then .error ⟨"finite_number", "Input should be a finite number", v⟩
      else if strict then .error ⟨"int_type", "Input should be a valid integer", v⟩
      else if num % (den : Int) = 0 then .ok (.int (num / (den : Int)))
      else .error ⟨"int_from_float",
        "Input should be a valid integer, got a number with a fractional part", v⟩
  | .bool b =>
      if strict then .error ⟨"int_type", "Input should be a valid integer", v⟩
      else .ok (.int (if b then 1 else 0))
  | .str s =>
      if strict then .error ⟨"int_type", "Input should be a valid integer", v⟩
      else
        match parseIntStr s with
        | some n => .ok (.int n)
        | none => .error ⟨"int_parsing",
            "Input should be a valid integer, unable to parse string as an integer", v⟩
  | _ => .error ⟨"int_type", "Input should be a valid integer", v⟩

/-- Modelled from the spec: §4.2 string coercer — accepts a string,
rejects everything else with `string_type`. -/
def coerceStr (_strict : Bool) (v : Raw) : Except CErr Raw :=
  match v with
  | .str s => .ok (.str s)
  | _ => .error ⟨"string_type", "Input should be a valid string", v⟩

/-- Coerce a list of raw elements with the integer coercer, keeping order. -/
def coerceIntList (strict : Bool) : List Raw → Except CErr (List Raw)
  | [] => .ok []
  | x :: rest => do
      let y ← coerceInt strict x
      let ys ← coerceIntList strict rest
      .ok (y :: ys)

/-- Sorted insertion dropping duplicates: the canonical representation of a
finite set of integers. -/
def setInsert (n : Int) : List Int → List Int
  | [] => [n]
  | m :: rest =>
      if n = m then m :: rest
      else if n < m then n :: m :: rest
      else m :: setInsert n rest

/-- De-duplicate and sort the integer members of a coerced element list:
the canonical value of a frozenset of integers. -/
def canonIntSet (xs : List Raw) : List Raw :=
  ((xs.filterMap fun v => match v with | .int n => some n | _ => none).foldl
    (fun acc n => setInsert n acc) []).map Raw.int

/-- Modelled from the spec: §4.2 set/frozenset coercer — any sequence or
set is accepted and de-duplicated, its members coerced element-wise; every
other source is rejected with `frozen_set_type`. -/
def coerceFrozenSetInt (strict : Bool) (v : Raw) : Except CErr Raw :=
  match v with
  | .seq xs => do
      let ys ← coerceIntList strict xs
      .ok (.set (canonIntSet ys))
  | .set xs => do
      let ys ← coerceIntList strict xs
      .ok (.set (canonIntSet ys))
  | _ => .error ⟨"frozen_set_type", "Input should be a valid frozenset", v⟩

/-- Modelled from the spec: §4.2 dispatch of the per-type coercers over the
declared type descriptor.  `Optional[str]` passes null through; `List[int]`
and `Tuple[int,int,int]` coerce element-wise; a still-open type variable is
a schema contract violation surfaced as an error. -/
def coerce (t : FType) (strict : Bool) (v : Raw) : Except CErr Raw :=
  match t with
  | .tInt => coerceInt strict v
  | .tStr => coerceStr strict v
  | .tOptStr =>
      match v with
      | .null => .ok .null
      | _ => coerceStr strict v
  | .tListInt =>
      match v with
      | .seq xs => do
          let ys ← coerceIntList strict xs
          .ok (.seq ys)
      | _ => .error ⟨"list_type", "Input should be a valid list/array", v⟩
  | .tTupleInt3 =>
      match v with
      | .seq [a, b, c] => do
          let a' ← coerceInt strict a
          let b' ← coerceInt strict b
          let c' ← coerceInt strict c
          .ok (.seq [a', b', c'])
      | _ => .error ⟨"tuple_type", "Input should be a valid tuple", v⟩
  | .tFrozenSetInt => coerceFrozenSetInt strict v
  | .tVar n => .error ⟨"unbound_typevar", "type variable " ++ n ++ " is unbound", v⟩

/-- Modelled from the spec: §4.3 — the outcome of calling one user hook.
A hook may replace the value, signal a domain failure (Python
`ValueError`, mapped to kind `value_error`), fail an internal invariant
(Python `AssertionError`, mapped to kind `assertion_error`), or raise any
other unrelated exception (e.g. `RuntimeError`), carried as `fault`. -/
inductive HookOut where
  | ok (v : Raw)
  | raiseValue (msg : String)
  | raiseAssert (msg : String)
  | fault (msg : String)

/-- Modelled from the spec: §3/§4.3 — a user hook receives the current
value and a read-only view of the already-validated fields
(`info.data`). -/
def Hook := Raw → List (String × Raw) → HookOut

/-- Trace events recording which pipeline stages ran, for which field, and
which hook: before-hook call, coercer call, after-hook call. -/
inductive Event where
  | beforeCall (field hook : String)
  | coerceCall (field : String)
  | afterCall (field hook : String)
deriving DecidableEq, Repr

/-- Modelled from the spec: §3 FieldSpec — field name, declared type,
optional default, and the resolved ordered before/after hook lists
(each hook carries its registration name for the trace). -/
structure FieldSpec where
  name : String
  type : FType
  default : Option Raw
  beforeHooks : List (String × Hook)
  afterHooks : List (String × Hook)

/-- Outcome of validating one field: a committed value, a structured
validation error, or an uncaught hook fault propagating out. -/
inductive FieldOut where
  | ok (v : Raw)
  | err (e : VError)
  | uncaught (msg : String)

/-- Build the `value_error` record of §7 for a hook-signalled domain
rejection: the hook's message is embedded in `msg` and exposed as
`ctx.error`; `input` echoes the value the failing hook received. -/
def valueError (field msg : String) (input : Raw) : VError :=
  ⟨"value_error", [field], "Value error, " ++ msg, input, some msg⟩

/-- Build the `assertion_error` record of §7 for a hook's internal
invariant failure. -/
def assertError (field msg : String) (input : Raw) : VError :=
  ⟨"assertion_error", [field], "Assertion failed, " ++ msg, input, some msg⟩

/-- Modelled from the spec: §4.3 steps 1 and 3 — apply one phase's hooks in
resolved order, each receiving the previous hook's output and the
validated-fields view; a domain failure or assertion failure becomes a
structured error, any other fault propagates. -/
def runHooks (field : String) (mk : String → Event)
    (hooks : List (String × Hook)) (data : List (String × Raw)) (v : Raw) :
    List Event × FieldOut :=
  match hooks with
  | [] => ([], .ok v)
  | (hn, h) :: rest =>
      match h v data with
      | .ok v' =>
          let (evs, out) := runHooks field mk rest data v'
          (mk hn :: evs, out)
      | .raiseValue m => ([mk hn], .err (valueError field m v))
      | .raiseAssert m => ([mk hn], .err (assertError field m v))
      | .fault m => ([mk hn], .uncaught m)

/-- Modelled from the spec: §4.3 — the per-field pipeline states
`NotStarted → BeforeHooksRun → Coerced → AfterHooksRun → Done`, with
`Failed` reachable from any state, plus a state for an uncaught hook
fault propagating out of the pipeline. -/
inductive FState where
  | notStarted (v : Raw)
  | beforeHooksRun (v : Raw)
  | coerced (v : Raw)
  | afterHooksRun (v : Raw)
  | done (v : Raw)
  | failed (e : VError)
  | faulted (msg : String)

/-- Modelled from the spec: §4.3 transition rules 1-4, one transition per
call.  `NotStarted → BeforeHooksRun` applies the before-hooks;
`BeforeHooksRun → Coerced` runs the type coercer, attaching the field
path; `Coerced → AfterHooksRun` applies the after-hooks; `AfterHooksRun →
Done` commits the value.  Terminal states absorb. -/
def fieldStep (fs : FieldSpec) (data : List (String × Raw)) :
    FState → List Event × FState
  | .notStarted v =>
      match runHooks fs.name (fun hn => .beforeCall fs.name hn) fs.beforeHooks data v with
      | (evs, .ok v') => (evs, .beforeHooksRun v')
      | (evs, .err e) => (evs, .failed e)
      | (evs, .uncaught m) => (evs, .faulted m)
  | .beforeHooksRun v =>
      match coerce fs.type false v with
      | .ok v' => ([.coerceCall fs.name], .coerced v')
      | .error e => ([.coerceCall fs.name], .failed ⟨e.type, [fs.name], e.msg, e.input, none⟩)
  | .coerced v =>
      match runHooks fs.name (fun hn => .afterCall fs.name hn) fs.afterHooks data v with
      | (evs, .ok v') => (evs, .afterHooksRun v')
      | (evs, .err e) => (evs, .failed e)
      | (evs, .uncaught m) => (evs, .faulted m)
  | .afterHooksRun v => ([], .done v)
  | .done v => ([], .done v)
  | .failed e => ([], .failed e)
  | .faulted m => ([], .faulted m)

/-- Iterate the per-field state machine a fixed number of steps,
concatenating the emitted trace events. -/
def fieldRun (fs : FieldSpec) (data : List (String × Raw)) :
    Nat → FState → List Event × FState
  | 0, s => ([], s)
  | n + 1, s =>
      let (evs, s') := fieldStep fs data s
      let (evs', s'') := fieldRun fs data n s'
      (evs ++ evs', s'')

/-- Modelled from the spec: §4.3 — validating one supplied field value is
driving the state machine from `NotStarted` through its four transitions. -/
def validateField (fs : FieldSpec) (data : List (String × Raw)) (raw : Raw) :
    List Event × FieldOut :=
  match fieldRun fs data 4 (.notStarted raw) with
  | (evs, .done v) => (evs, .ok v)
  | (evs, .failed e) => (evs, .err e)
  | (evs, .faulted m) => (evs, .uncaught m)
  | (evs, .notStarted v) => (evs, .ok v)
  | (evs, .beforeHooksRun v) => (evs, .ok v)
  | (evs, .coerced v) => (evs, .ok v)
  | (evs, .afterHooksRun v) => (evs, .ok v)

/-- The claim's phase-composition reading of the pipeline: before-hooks,
then coercion, then after-hooks, each phase consuming the previous
phase's output value, short-circuiting on the first failure.  Stated from
the spec's words, to be compared with the state-machine `validateField`. -/
def fieldPhases (fs : FieldSpec) (data : List (String × Raw)) (raw : Raw) :
    List Event × FieldOut :=
  match runHooks fs.name (fun hn => .beforeCall fs.name hn) fs.beforeHooks data raw with
  | (evs, .ok v1) =>
      match coerce fs.type false v1 with
      | .ok v2 =>
          match runHooks fs.name (fun hn => .afterCall fs.name hn) fs.afterHooks data v2 with
          | (evs', out) => (evs ++ .coerceCall fs.name :: evs', out)
      | .error e =>
          (evs ++ [.coerceCall fs.name], .err ⟨e.type, [fs.name], e.msg, e.input, none⟩)
  | (evs, out) => (evs, out)

/-- First value stored under a key in an association list, if any. -/
def lookupRaw (l : List (String × Raw)) (k : String) : Option Raw :=
  match l with
  | [] => none
  | (k', v) :: rest => if k' = k then some v else lookupRaw rest k

/-- Store a value under a key: replace the first occurrence of the key,
or append a new entry when the key is absent (dynamic extra-field
assignment under extra=allow). -/
def setField : List (String × Raw) → String → Raw → List (String × Raw)
  | [], k, v => [(k, v)]
  | (k', v') :: rest, k, v =>
      if k' = k then (k, v) :: rest else (k', v') :: setField rest k v

/-- Outcome of one whole-model validation call: the validated instance
field map (in declaration order), the aggregated non-empty error list, or
an uncaught hook fault. -/
inductive ModelOut where
  | ok (inst : List (String × Raw))
  | errs (es : List VError)
  | uncaught (msg : String)

/-- Modelled from the spec: §4.3/§4.4 — process the fields in declaration
order, threading the validated-fields view forward and accumulating
errors without short-circuiting across fields.  A missing required field
is a `missing` error without coercion; an absent field with a default
stores the default with no validation; an uncaught hook fault aborts. -/
def runFields (input : List (String × Raw)) :
    List FieldSpec → List (String × Raw) → List VError →
    List Event × (List (String × Raw) × List VError ⊕ String)
  | [], data, errs => ([], .inl (data, errs))
  | fs :: rest, data, errs =>
      match lookupRaw input fs.name with
      | none =>
          match fs.default with
          | some d => runFields input rest (data ++ [(fs.name, d)]) errs
          | none =>
              runFields input rest data
                (errs ++ [⟨"missing", [fs.name], "Field required", .null, none⟩])
      | some raw =>
          match validateField fs data raw with
          | (evs, .ok v) =>
              let (evs', r) := runFields input rest (data ++ [(fs.name, v)]) errs
              (evs ++ evs', r)
          | (evs, .err e) =>
              let (evs', r) := runFields input rest data (errs ++ [e])
              (evs ++ evs', r)
          | (evs, .uncaught m) => (evs, .inr m)

/-- Modelled from the spec: §4.5 construction — run the pipeline over the
raw input; succeed exactly when the error accumulator is empty. -/
def validateModel (fields : List FieldSpec) (input : List (String × Raw)) :
    List Event × ModelOut :=
  match runFields input fields [] [] with
  | (evs, .inl (data, [])) => (evs, .ok data)
  | (evs, .inl (_, e :: es)) => (evs, .errs (e :: es))
  | (evs, .inr m) => (evs, .uncaught m)

/-- Result of one assignment: success, a surfaced validation failure, or
an uncaught hook fault propagating to the caller. -/
inductive AssignOut where
  | ok
  | failed (e : VError)
  | uncaught (msg : String)

/-- Look up the FieldSpec of a given name. -/
def findSpec (fields : List FieldSpec) (k : String) : Option FieldSpec :=
  match fields with
  | [] => none
  | fs :: rest => if fs.name = k then some fs else findSpec rest k

/-- Modelled from the spec: §4.5 assignment with revalidate-on-assignment
on — re-run the single-field slice of the pipeline for the assigned field
with the validated-fields view taken from the instance's current
other-field values.  The candidate raw value is written first (mirroring
in-place mutation); on success it is overwritten with the validated
value, on any failure the field is restored to its prior value and the
failure is surfaced.  A name with no FieldSpec is an extra field under
extra=allow: stored verbatim, no validation. -/
def assignField (fields : List FieldSpec) (inst : List (String × Raw))
    (k : String) (raw : Raw) : AssignOut × List (String × Raw) :=
  match findSpec fields k with
  | none => (.ok, setField inst k raw)
  | some fs =>
      match validateField fs (inst.filter fun p => !(p.1 == k)) raw with
      | (_, .ok v) => (.ok, setField (setField inst k raw) k v)
      | (_, .err e) =>
          match lookupRaw inst k with
          | some prior => (.failed e, setField (setField inst k raw) k prior)
          | none => (.failed e, inst)
      | (_, .uncaught m) =>
          match lookupRaw inst k with
          | some prior => (.uncaught m, setField (setField inst k raw) k prior)
          | none => (.uncaught m, inst)

/-! Concrete models from src/tests/test_validators.py. -/

/-- Whether a raw sequence contains a given integer (`n in v`). -/
def seqHasInt (xs : List Raw) (n : Int) : Bool :=
  xs.any fun v => match v with | .int m => m = n | _ => false

/-- `test_validate_whole.check_a1`: before-hook appending the string
'123' to the list. -/
def check_a1_whole : Hook := fun v _ =>
  match v with
  | .seq xs => .ok (.seq (xs ++ [.str "123"]))
  | _ => .ok v

/-- `test_validate_whole.check_a2`: after-hook appending 456 to the
list. -/
def check_a2_whole : Hook := fun v _ =>
  match v with
  | .seq xs => .ok (.seq (xs ++ [.int 456]))
  | _ => .ok v

/-- `test_validate_whole.Model`: a single field `a : List[int]` with the
two hooks above. -/
def wholeModel : List FieldSpec :=
  [⟨"a", .tListInt, none, [("check_a1", check_a1_whole)], [("check_a2", check_a2_whole)]⟩]

/-- `test_validate_pre_error.check_a1`: before-hook raising
ValueError('a1 broken') when 1 is in the list, otherwise incrementing the
first element. -/
def check_a1_pre : Hook := fun v _ =>
  match v with
  | .seq xs =>
      if seqHasInt xs 1 then .raiseValue "a1 broken"
      else
        match xs with
        | .int m :: rest => .ok (.seq (.int (m + 1) :: rest))
        | _ => .ok (.seq xs)
  | _ => .ok v

/-- `test_validate_pre_error.check_a2`: after-hook raising
ValueError('a2 broken') when 10 is in the list. -/
def check_a2_pre : Hook := fun v _ =>
  match v with
  | .seq xs => if seqHasInt xs 10 then .raiseValue "a2 broken" else .ok v
  | _ => .ok v

/-- `test_validate_pre_error.Model`: a single field `a : List[int]` with
the two hooks above. -/
def preModel : List FieldSpec :=
  [⟨"a", .tListInt, none, [("check_a1", check_a1_pre)], [("check_a2", check_a2_pre)]⟩]

/-- `test_int_validation.Model` / `test_int_overflow_validation.Model`:
a single plain field `a : int`, no hooks. -/
def intModel : List FieldSpec := [⟨"a", .tInt, none, [], []⟩]

/-- Whether the first character list is a prefix of the second. -/
def charsPrefix : List Char → List Char → Bool
  | [], _ => true
  | _ :: _, [] => false
  | p :: ps, c :: cs => p = c && charsPrefix ps cs

/-- Whether the pattern occurs as a contiguous run inside the character
list: it is a prefix of some suffix. -/
def charsContains (pat : List Char) : List Char → Bool
  | [] => charsPrefix pat []
  | c :: cs => charsPrefix pat (c :: cs) || charsContains pat cs

/-- Substring test (`pat in s`). -/
def strContains (s pat : String) : Bool := charsContains pat.data s.data

/-- `test_simple.check_a`: hook raising
ValueError('"foobar" not found in a') when 'foobar' is not in the
value. -/
def check_a_foobar : Hook := fun v _ =>
  match v with
  | .str s =>
      if strContains s "foobar" then .ok (.str s)
      else .raiseValue "\"foobar\" not found in a"
  | _ => .ok v

/-- `test_simple.Model`: a single field `a : str` with the hook above. -/
def fooModel : List FieldSpec :=
  [⟨"a", .tStr, none, [], [("check_a", check_a_foobar)]⟩]

/-- `validate_assignment_model_fixture.b_length`: rejects `b` when it is
shorter than the already-validated value of `a`. -/
def b_length : Hook := fun v data =>
  match lookupRaw data "a" with
  | some (.int a) =>
      match v with
      | .str s => if (s.length : Int) < a then .raiseValue "b too short" else .ok v
      | _ => .ok v
  | _ => .ok v

/-- `validate_assignment_model_fixture.double_c`: returns `v * 2`. -/
def double_c : Hook := fun v _ =>
  match v with
  | .int n => .ok (.int (n * 2))
  | _ => .ok v

/-- `validate_assignment_model_fixture.ValidateAssignmentModel`:
`a : int = 4`, `b : str` required, `c : int = 0`, with the two hooks
above and validate_assignment enabled. -/
def vaModel : List FieldSpec :=
  [⟨"a", .tInt, some (.int 4), [], []⟩,
   ⟨"b", .tStr, none, [], [("b_length", b_length)]⟩,
   ⟨"c", .tInt, some (.int 0), [], [("double_c", double_c)]⟩]

/-- `test_exceptions_in_field_validators_restore_original_field_value.validate_foo`:
raises RuntimeError('test error') — an exception that is neither
ValueError nor AssertionError — on the value 'raise_exception'. -/
def validate_foo : Hook := fun v _ =>
  match v with
  | .str s => if s = "raise_exception" then .fault "test error" else .ok (.str s)
  | _ => .ok v

/-- `test_exceptions_in_field_validators_restore_original_field_value.Model`:
`foo : str` with the RuntimeError-raising hook, validate_assignment on. -/
def rtModel : List FieldSpec :=
  [⟨"foo", .tStr, none, [], [("validate_foo", validate_foo)]⟩]

/-- `test_assert_raises_validation_error.check_a`: `assert v == 'a',
'invalid a'` (the assertion message proper; the test's expected text
additionally carries pytest-injected introspection output). -/
def check_a_assert : Hook := fun v _ =>
  match v with
  | .str s => if s = "a" then .ok (.str s) else .raiseAssert "invalid a"
  | _ => .ok v

/-- `test_assert_raises_validation_error.Model`: `a : str` with the
asserting hook. -/
def assertModel : List FieldSpec :=
  [⟨"a", .tStr, none, [], [("check_a", check_a_assert)]⟩]

/-- A hook list none of whose hooks ever raises a non-domain fault (only
ok / ValueError / AssertionError outcomes). -/
def HooksNoFault (hooks : List (String × Hook)) : Prop :=
  ∀ p ∈ hooks, ∀ v d m, p.2 v d ≠ .fault m

/-- A field spec none of whose hooks ever raises a non-domain fault. -/
def SpecNoFault (fs : FieldSpec) : Prop :=
  HooksNoFault fs.beforeHooks ∧ HooksNoFault fs.afterHooks

/-- Modelled from the spec: §4.1 — one validator registration: the
decorated function's identity (its name), the field it targets, and
whether it is explicitly marked reusable (`allow_reuse`). -/
structure HookDecl where
  fname : String
  field : String
  allowReuse : Bool
deriving DecidableEq, Repr

/-- One registration step over the accumulated registry: registering a
name already present and not marked reusable on both sides emits a
duplicate-validator warning (as `test_duplicates` asserts) and the new
function shadows the old; marked reusable on both sides, both hooks
stay registered.  Registration never fails. -/
def registerAux : List HookDecl → List String → List HookDecl →
    List String × List HookDecl
  | [], warns, acc => (warns, acc)
  | d :: rest, warns, acc =>
      if acc.any fun d' => d'.fname == d.fname && !(d.allowReuse && d'.allowReuse) then
        registerAux rest (warns ++ ["duplicate validator function " ++ d.fname])
          ((acc.filter fun d' => !(d'.fname == d.fname)) ++ [d])
      else registerAux rest warns (acc ++ [d])

/-- Process a model's validator declarations in order, returning the
emitted warnings and the effective registry. -/
def registerValidators (ds : List HookDecl) : List String × List HookDecl :=
  registerAux ds [] []

/-- The after-hooks a registry assigns to one field, given the mapping
from function name to hook implementation. -/
def declHooks (decls : List HookDecl) (impl : String → Hook) (field : String) :
    List (String × Hook) :=
  (decls.filter fun d => d.field == field).map fun d => (d.fname, impl d.fname)

/-- Build the compiled field list of a model from its plain typed fields
and its effective validator registry. -/
def buildModel (decls : List HookDecl) (impl : String → Hook)
    (fields : List (String × FType)) : List FieldSpec :=
  fields.map fun p => ⟨p.1, p.2, none, [], declHooks decls impl p.1⟩

/-- `test_duplicates`: two validator functions both named
`duplicate_name`, on fields `a` and `b`, neither marked reusable. -/
def dupDecls : List HookDecl :=
  [⟨"duplicate_name", "a", false⟩, ⟨"duplicate_name", "b", false⟩]

/-- `test_reuse_global_validators`: the shared global validator registered
on `x` and on `y`, both with `allow_reuse=True`. -/
def reuseDecls : List HookDecl :=
  [⟨"reusable_validator", "x", true⟩, ⟨"reusable_validator", "y", true⟩]

/-- `reusable_validator`: returns `num * 2`. -/
def reusable_validator : Hook := fun v _ =>
  match v with
  | .int n => .ok (.int (n * 2))
  | _ => .ok v

/-- The hook-implementation table of `test_reuse_global_validators`:
every registered name resolves to the shared doubling function. -/
def reuseImpl : String → Hook := fun _ => reusable_validator

/-- `test_reuse_global_validators.Model`: `x : int`, `y : int`, with the
effective registry produced by registration. -/
def reuseModel : List FieldSpec :=
  buildModel (registerValidators reuseDecls).2 reuseImpl [("x", .tInt), ("y", .tInt)]

/-- The spec's (and the claim's) reading of §4.1 in which a duplicate
registration without `allow_reuse` is a compile-time `SchemaError`,
stated for comparison with the registration the tests pin down. -/
def compileStrictSpec (ds : List HookDecl) : Except String (List HookDecl) :=
  let dup := ds.any fun d => ds.any fun d' =>
    d'.fname == d.fname && (d'.field != d.field) && !(d.allowReuse && d'.allowReuse)
  if dup then .error "SchemaError" else .ok ds

/-- `test_frozenset_validation.Model`: a single field
`a : FrozenSet[int]`, no hooks. -/
def fsModel : List FieldSpec := [⟨"a", .tFrozenSetInt, none, [], []⟩]

/-- Whether a raw value is an acceptable source for the set/frozenset
coercer: an ordered sequence or a set. -/
def isSeqOrSet (v : Raw) : Bool :=
  match v with
  | .seq _ => true
  | .set _ => true
  | _ => false

/-- Modelled from the spec: §4.1 generic models — a model definition with
open type variables: its declared parameter names and its typed fields. -/
structure GenModel where
  params : List String
  fields : List (String × FType)

/-- Substitute bound type variables in a type descriptor. -/
def substFType (b : List (String × FType)) (t : FType) : FType :=
  match t with
  | .tVar n =>
      match b.find? (fun p => p.1 == n) with
      | some p => p.2
      | none => .tVar n
  | t => t

/-- Modelled from the spec: §4.1 — deriving a generic subtype: the
supertype's fields come first, with the parent's type arguments bound,
and the subtype-only fields are appended. -/
def inheritGen (base : GenModel) (parentArgs : List FType)
    (ownParams : List String) (ownFields : List (String × FType)) : GenModel :=
  let binding := base.params.zip parentArgs
  ⟨ownParams, (base.fields.map fun p => (p.1, substFType binding p.2)) ++ ownFields⟩

/-- Bind a generic model's remaining type parameters to concrete types,
yielding the compiled plain field list. -/
def bindGen (g : GenModel) (args : List FType) : List FieldSpec :=
  let binding := g.params.zip args
  g.fields.map fun p => ⟨p.1, substFType binding p.2, none, [], []⟩

/-- `models_generics_inheritance_extend.BaseClass`: generic over
TypeX, TypeY with fields `x : TypeX`, `y : TypeY`. -/
def baseClass : GenModel :=
  ⟨["TypeX", "TypeY"], [("x", .tVar "TypeX"), ("y", .tVar "TypeY")]⟩

/-- `models_generics_inheritance_extend.ChildClass`: derives from
`BaseClass[int, TypeY]`, is generic over TypeY, TypeZ, and adds
`z : TypeZ`. -/
def childClass : GenModel :=
  inheritGen baseClass [.tInt, .tVar "TypeY"] ["TypeY", "TypeZ"]
    [("z", .tVar "TypeZ")]

/-- `test_validate_not_always.check_a`: before-hook returning
`v or 'xxx'`. -/
def check_a_or : Hook := fun v _ =>
  match v with
  | .null => .ok (.str "xxx")
  | _ => .ok v

/-- `test_validate_not_always.Model`: `a : Optional[str] = None` with the
before-hook above. -/
def notAlwaysModel : List FieldSpec :=
  [⟨"a", .tOptStr, some .null, [("check_a", check_a_or)], []⟩]

/-- `test_pre_called_once.check_a`: counting before-hook returning the
value unchanged. -/
def check_a_count : Hook := fun v _ => .ok v

/-- `test_pre_called_once.Model`: `a : Tuple[int, int, int]` with the
before-hook above. -/
def preOnceModel : List FieldSpec :=
  [⟨"a", .tTupleInt3, none, [("check_a", check_a_count)], []⟩]

/-- How many times the trace records a call of a given before-hook of a
given field. -/
def countBefore (evs : List Event) (field hn : String) : Nat :=
  (evs.filter fun e => e = .beforeCall field hn).length

/-- The field a trace event belongs to. -/
def evFieldName : Event → String
  | .beforeCall f _ => f
  | .coerceCall f => f
  | .afterCall f _ => f

/-! Helper lemmas about the pipeline. -/

/-- Every event emitted by one hook phase is built by that phase's event
constructor. -/
theorem runHooks_events_shape (field : String) (mk : String → Event)
    (hooks : List (String × Hook)) (data : List (String × Raw)) (v : Raw) :
    ∀ e ∈ (runHooks field mk hooks data v).1, ∃ hn, e = mk hn := by
  induction hooks generalizing v with
  | nil => intro e he; simp [runHooks] at he
  | cons hd rest ih =>
      intro e he
      rcases hd with ⟨hn, h⟩
      simp only [runHooks] at he
      cases hh : h v data with
      | ok v' =>
          rw [hh] at he
          simp only [List.mem_cons] at he
          rcases he with he | he
          · exact ⟨hn, he⟩
          · exact ih v' e he
      | raiseValue m =>
          rw [hh] at he
          simp only [List.mem_cons, List.not_mem_nil, or_false] at he
          exact ⟨hn, he⟩
      | raiseAssert m =>
          rw [hh] at he
          simp only [List.mem_cons, List.not_mem_nil, or_false] at he
          exact ⟨hn, he⟩
      | fault m =>
          rw [hh] at he
          simp only [List.mem_cons, List.not_mem_nil, or_false] at he
          exact ⟨hn, he⟩

/-- The state-machine pipeline equals the phase composition: before-hooks,
then coercion, then after-hooks, each phase consuming the previous
phase's output. -/
theorem validateField_eq_phases (fs : FieldSpec) (data : List (String × Raw))
    (raw : Raw) : validateField fs data raw = fieldPhases fs data raw := by
  rcases h1 : runHooks fs.name (fun hn => Event.beforeCall fs.name hn)
      fs.beforeHooks data raw with ⟨evs1, o1⟩
  cases o1 with
  | ok v1 =>
      cases h2 : coerce fs.type false v1 with
      | ok v2 =>
          rcases h3 : runHooks fs.name (fun hn => Event.afterCall fs.name hn)
              fs.afterHooks data v2 with ⟨evs3, o3⟩
          cases o3 <;>
            simp [validateField, fieldPhases, fieldRun, fieldStep, h1, h2, h3]
      | error e => simp [validateField, fieldPhases, fieldRun, fieldStep, h1, h2]
  | err e => simp [validateField, fieldPhases, fieldRun, fieldStep, h1]
  | uncaught m => simp [validateField, fieldPhases, fieldRun, fieldStep, h1]

/-- When the before-hook phase fails, the field pipeline stops with that
failure: its trace is exactly the before-phase trace, which contains no
coercer call and no after-hook call. -/
theorem validateField_before_fail (fs : FieldSpec) (data : List (String × Raw))
    (raw : Raw) (evs : List Event) (e : VError)
    (h : runHooks fs.name (fun hn => Event.beforeCall fs.name hn)
        fs.beforeHooks data raw = (evs, .err e)) :
    validateField fs data raw = (evs, .err e) ∧
      (∀ f, Event.coerceCall f ∉ evs) ∧ (∀ f hn, Event.afterCall f hn ∉ evs) := by
  refine ⟨?_, ?_, ?_⟩
  · rw [validateField_eq_phases]
    simp [fieldPhases, h]
  · intro f hf
    obtain ⟨hn, hshape⟩ := runHooks_events_shape fs.name
      (fun hn => Event.beforeCall fs.name hn) fs.beforeHooks data raw _ (by rw [h]; exact hf)
    exact Event.noConfusion hshape
  · intro f hn hf
    obtain ⟨hn', hshape⟩ := runHooks_events_shape fs.name
      (fun hn => Event.beforeCall fs.name hn) fs.beforeHooks data raw _ (by rw [h]; exact hf)
    exact Event.noConfusion hshape

/-- Overwriting the same key twice keeps only the second value. -/
theorem setField_setField (l : List (String × Raw)) (k : String) (a b : Raw) :
    setField (setField l k a) k b = setField l k b := by
  induction l with
  | nil => simp [setField]
  | cons hd rest ih =>
      rcases hd with ⟨k', v'⟩
      by_cases h : k' = k
      · simp [setField, h]
      · simp [setField, h, ih]

/-- Writing back the value a key already holds does not change the map. -/
theorem setField_self (l : List (String × Raw)) (k : String) (v : Raw)
    (h : lookupRaw l k = some v) : setField l k v = l := by
  induction l with
  | nil => simp [lookupRaw] at h
  | cons hd rest ih =>
      rcases hd with ⟨k', v'⟩
      by_cases hk : k' = k
      · simp [lookupRaw, hk] at h
        simp [setField, hk, h]
      · simp [lookupRaw, hk] at h
        simp [setField, hk, ih h]

/-- Reading a key immediately after writing it yields the written value. -/
theorem lookupRaw_setField (l : List (String × Raw)) (k : String) (v : Raw) :
    lookupRaw (setField l k v) k = some v := by
  induction l with
  | nil => simp [setField, lookupRaw]
  | cons hd rest ih =>
      rcases hd with ⟨k', v'⟩
      by_cases hk : k' = k
      · simp [setField, hk, lookupRaw]
      · simp [setField, hk, lookupRaw, ih]

/-- A found spec is a member of the field list. -/
theorem findSpec_mem (fields : List FieldSpec) (k : String) (fs : FieldSpec)
    (h : findSpec fields k = some fs) : fs ∈ fields := by
  induction fields with
  | nil => simp [findSpec] at h
  | cons hd rest ih =>
      by_cases hk : hd.name = k
      · simp [findSpec, hk] at h
        simp [h]
      · simp [findSpec, hk] at h
        exact List.mem_cons_of_mem _ (ih h)

/-- A phase whose hooks never fault never produces an uncaught outcome. -/
theorem runHooks_no_fault (field : String) (mk : String → Event)
    (hooks : List (String × Hook)) (data : List (String × Raw)) (v : Raw)
    (hnf : HooksNoFault hooks) (m : String) :
    (runHooks field mk hooks data v).2 ≠ .uncaught m := by
  induction hooks generalizing v with
  | nil => simp [runHooks]
  | cons hd rest ih =>
      rcases hd with ⟨hn, h⟩
      have hrest : HooksNoFault rest := fun p hp => hnf p (List.mem_cons_of_mem _ hp)
      cases hh : h v data with
      | ok v' =>
          simp only [runHooks, hh]
          exact ih v' hrest
      | raiseValue m' => simp [runHooks, hh]
      | raiseAssert m' => simp [runHooks, hh]
      | fault m' =>
          exact absurd hh (hnf (hn, h) (List.mem_cons_self _ _) v data m')

/-- A field whose hooks never fault never produces an uncaught outcome. -/
theorem validateField_no_fault (fs : FieldSpec) (data : List (String × Raw))
    (raw : Raw) (hnf : SpecNoFault fs) (m : String) :
    (validateField fs data raw).2 ≠ .uncaught m := by
  rw [validateField_eq_phases]
  unfold fieldPhases
  rcases h1 : runHooks fs.name (fun hn => Event.beforeCall fs.name hn)
      fs.beforeHooks data raw with ⟨evs1, o1⟩
  cases o1 with
  | ok v1 =>
      cases h2 : coerce fs.type false v1 with
      | ok v2 =>
          rcases h3 : runHooks fs.name (fun hn => Event.afterCall fs.name hn)
              fs.afterHooks data v2 with ⟨evs3, o3⟩
          cases o3 with
          | ok v3 => simp [h2, h3]
          | err e => simp [h2, h3]
          | uncaught m' =>
              have ha := runHooks_no_fault fs.name (fun hn => Event.afterCall fs.name hn)
                fs.afterHooks data v2 hnf.2 m'
              rw [h3] at ha
              simp at ha
      | error e => simp [h2]
  | err e => simp
  | uncaught m' =>
      have hb := runHooks_no_fault fs.name (fun hn => Event.beforeCall fs.name hn)
        fs.beforeHooks data raw hnf.1 m'
      rw [h1] at hb
      simp at hb

/-- When no field's hooks fault, processing the field list never aborts. -/
theorem runFields_no_fault (input : List (String × Raw)) (fields : List FieldSpec)
    (hnf : ∀ fs ∈ fields, SpecNoFault fs) :
    ∀ data errs m, (runFields input fields data errs).2 ≠ .inr m := by
  induction fields with
  | nil => intro data errs m; simp [runFields]
  | cons fs rest ih =>
      intro data errs m
      have hrest : ∀ f ∈ rest, SpecNoFault f := fun f hf =>
        hnf f (List.mem_cons_of_mem _ hf)
      simp only [runFields]
      split
      · split
        · exact ih hrest _ _ m
        · exact ih hrest _ _ m
      · next raw heq =>
          split
          · simpa using ih hrest _ _ m
          · simpa using ih hrest _ _ m
          · next evs m' heq2 =>
              have := validateField_no_fault fs data raw
                (hnf fs (List.mem_cons_self _ _)) m'
              rw [heq2] at this
              simp at this

/-- When no field's hooks fault, construction never ends in an uncaught
fault. -/
theorem validateModel_no_fault (fields : List FieldSpec)
    (input : List (String × Raw)) (hnf : ∀ fs ∈ fields, SpecNoFault fs)
    (m : String) : (validateModel fields input).2 ≠ .uncaught m := by
  unfold validateModel
  rcases hr : runFields input fields [] [] with ⟨evs, r⟩
  cases r with
  | inl p =>
      rcases p with ⟨data, errs⟩
      cases errs <;> simp
  | inr m' =>
      have := runFields_no_fault input fields hnf [] [] m'
      rw [hr] at this
      simp at this

/-- When no field's hooks fault, assignment never ends in an uncaught
fault. -/
theorem assignField_no_fault (fields : List FieldSpec)
    (inst : List (String × Raw)) (k : String) (raw : Raw)
    (hnf : ∀ fs ∈ fields, SpecNoFault fs) (m : String) :
    (assignField fields inst k raw).1 ≠ .uncaught m := by
  unfold assignField
  cases hf : findSpec fields k with
  | none => simp
  | some fs =>
      rcases hv : validateField fs (inst.filter fun p => !(p.1 == k)) raw with ⟨evs, out⟩
      cases out with
      | ok v => simp [hv]
      | err e => cases hl : lookupRaw inst k <;> simp [hv, hl]
      | uncaught m' =>
          have := validateField_no_fault fs (inst.filter fun p => !(p.1 == k)) raw
            (hnf fs (findSpec_mem _ _ _ hf)) m'
          rw [hv] at this
          simp at this

/-- A failed assignment leaves the instance exactly as it was. -/
theorem assignField_restore (fields : List FieldSpec)
    (inst : List (String × Raw)) (k : String) (raw : Raw)
    (r : AssignOut) (final : List (String × Raw))
    (h : assignField fields inst k raw = (r, final)) (hr : r ≠ .ok) :
    final = inst := by
  unfold assignField at h
  cases hf : findSpec fields k with
  | none =>
      rw [hf] at h
      dsimp only at h
      rw [Prod.mk.injEq] at h
      exact absurd h.1.symm hr
  | some fs =>
      rw [hf] at h
      dsimp only at h
      rcases hv : validateField fs (inst.filter fun p => !(p.1 == k)) raw with ⟨evs, out⟩
      rw [hv] at h
      cases out with
      | ok v =>
          rw [Prod.mk.injEq] at h
          exact absurd h.1.symm hr
      | err e =>
          cases hl : lookupRaw inst k with
          | none =>
              rw [hl] at h
              rw [Prod.mk.injEq] at h
              exact h.2.symm
          | some prior =>
              rw [hl] at h
              rw [Prod.mk.injEq] at h
              rw [← h.2, setField_setField, setField_self inst k prior hl]
      | uncaught m =>
          cases hl : lookupRaw inst k with
          | none =>
              rw [hl] at h
              rw [Prod.mk.injEq] at h
              exact h.2.symm
          | some prior =>
              rw [hl] at h
              rw [Prod.mk.injEq] at h
              rw [← h.2, setField_setField, setField_self inst k prior hl]

/-- Looking a key up past a prefix that does not hold it. -/
theorem lookupRaw_append_none (l1 l2 : List (String × Raw)) (k : String)
    (h : lookupRaw l1 k = none) :
    lookupRaw (l1 ++ l2) k = lookupRaw l2 k := by
  induction l1 with
  | nil => simp
  | cons hd rest ih =>
      rcases hd with ⟨k', v'⟩
      simp only [lookupRaw] at h
      by_cases hk : k' = k
      · rw [if_pos hk] at h
        exact absurd h (by simp)
      · rw [if_neg hk] at h
        simp only [List.cons_append, lookupRaw]
        rw [if_neg hk]
        exact ih h

/-- A key absent from the key list is not found. -/
theorem lookupRaw_none_of_not_mem (l : List (String × Raw)) (k : String)
    (h : k ∉ l.map Prod.fst) : lookupRaw l k = none := by
  induction l with
  | nil => rfl
  | cons hd rest ih =>
      simp only [List.map_cons, List.mem_cons] at h
      push_neg at h
      simp only [lookupRaw]
      rw [if_neg (Ne.symm h.1)]
      exact ih h.2

/-- Every event a field's pipeline emits belongs to that field. -/
theorem validateField_events_field (fs : FieldSpec) (data : List (String × Raw))
    (raw : Raw) : ∀ e ∈ (validateField fs data raw).1, evFieldName e = fs.name := by
  rw [validateField_eq_phases]
  unfold fieldPhases
  rcases h1 : runHooks fs.name (fun hn => Event.beforeCall fs.name hn)
      fs.beforeHooks data raw with ⟨evs1, o1⟩
  have hb : ∀ e ∈ evs1, evFieldName e = fs.name := by
    intro e he
    obtain ⟨hn, rfl⟩ := runHooks_events_shape fs.name
      (fun hn => Event.beforeCall fs.name hn) fs.beforeHooks data raw e (by rw [h1]; exact he)
    rfl
  cases o1 with
  | ok v1 =>
      cases h2 : coerce fs.type false v1 with
      | ok v2 =>
          rcases h3 : runHooks fs.name (fun hn => Event.afterCall fs.name hn)
              fs.afterHooks data v2 with ⟨evs3, o3⟩
          have ha : ∀ e ∈ evs3, evFieldName e = fs.name := by
            intro e he
            obtain ⟨hn, rfl⟩ := runHooks_events_shape fs.name
              (fun hn => Event.afterCall fs.name hn) fs.afterHooks data v2 e (by rw [h3]; exact he)
            rfl
          intro e he
          simp only [h2, h3, List.mem_append, List.mem_cons] at he
          rcases he with he | he | he
          · exact hb e he
          · rw [he]; rfl
          · exact ha e he
      | error e' =>
          intro e he
          simp only [h2, List.mem_append, List.mem_cons, List.not_mem_nil, or_false] at he
          rcases he with he | he
          · exact hb e he
          · rw [he]; rfl
  | err e' => exact hb
  | uncaught m => exact hb

/-- Every event the field loop emits belongs to some field of the list
that was actually supplied in the input. -/
theorem runFields_events (input : List (String × Raw)) (fields : List FieldSpec) :
    ∀ data errs, ∀ e ∈ (runFields input fields data errs).1,
      ∃ fs ∈ fields, (lookupRaw input fs.name).isSome ∧ evFieldName e = fs.name := by
  induction fields with
  | nil => intro data errs e he; simp [runFields] at he
  | cons fs rest ih =>
      intro data errs e he
      simp only [runFields] at he
      rcases hl : lookupRaw input fs.name with _ | raw
      · rw [hl] at he
        dsimp only at he
        rcases hd : fs.default with _ | d
        · rw [hd] at he
          dsimp only at he
          obtain ⟨f, hf, hs, hev⟩ := ih data _ e he
          exact ⟨f, List.mem_cons_of_mem _ hf, hs, hev⟩
        · rw [hd] at he
          dsimp only at he
          obtain ⟨f, hf, hs, hev⟩ := ih (data ++ [(fs.name, d)]) errs e he
          exact ⟨f, List.mem_cons_of_mem _ hf, hs, hev⟩
      · rw [hl] at he
        dsimp only at he
        rcases hv : validateField fs data raw with ⟨evs, out⟩
        have hself : ∀ e ∈ evs, evFieldName e = fs.name := by
          intro e' he'
          have := validateField_events_field fs data raw e'
          rw [hv] at this
          exact this he'
        rw [hv] at he
        cases out with
        | ok v =>
            simp only [List.mem_append] at he
            rcases he with he | he
            · exact ⟨fs, List.mem_cons_self _ _, by simp [hl], hself e he⟩
            · obtain ⟨f, hf, hs, hev⟩ := ih (data ++ [(fs.name, v)]) errs e he
              exact ⟨f, List.mem_cons_of_mem _ hf, hs, hev⟩
        | err e' =>
            simp only [List.mem_append] at he
            rcases he with he | he
            · exact ⟨fs, List.mem_cons_self _ _, by simp [hl], hself e he⟩
            · obtain ⟨f, hf, hs, hev⟩ := ih data (errs ++ [e']) e he
              exact ⟨f, List.mem_cons_of_mem _ hf, hs, hev⟩
        | uncaught m =>
            exact ⟨fs, List.mem_cons_self _ _, by simp [hl], hself e he⟩

/-- The field loop only appends entries named after fields of the list. -/
theorem runFields_data (input : List (String × Raw)) (fields : List FieldSpec) :
    ∀ data errs evs data' errs',
      runFields input fields data errs = (evs, .inl (data', errs')) →
      ∃ new, data' = data ++ new ∧
        ∀ k ∈ new.map Prod.fst, k ∈ fields.map FieldSpec.name := by
  induction fields with
  | nil =>
      intro data errs evs data' errs' h
      simp only [runFields, Prod.mk.injEq, Sum.inl.injEq] at h
      exact ⟨[], by simp [← h.2.1], by simp⟩
  | cons fs rest ih =>
      intro data errs evs data' errs' h
      simp only [runFields] at h
      rcases hl : lookupRaw input fs.name with _ | raw
      · rw [hl] at h
        dsimp only at h
        rcases hd : fs.default with _ | d
        · rw [hd] at h
          dsimp only at h
          obtain ⟨new, hnew, hkeys⟩ := ih data _ evs data' errs' h
          exact ⟨new, hnew, fun k hk => List.mem_cons_of_mem _ (hkeys k hk)⟩
        · rw [hd] at h
          dsimp only at h
          obtain ⟨new, hnew, hkeys⟩ := ih (data ++ [(fs.name, d)]) errs evs data' errs' h
          refine ⟨(fs.name, d) :: new, by simp [hnew], ?_⟩
          intro k hk
          simp only [List.map_cons, List.mem_cons] at hk ⊢
          rcases hk with hk | hk
          · exact Or.inl hk
          · exact Or.inr (hkeys k hk)
      · rw [hl] at h
        dsimp only at h
        rcases hv : validateField fs data raw with ⟨evs0, out⟩
        rw [hv] at h
        cases out with
        | ok v =>
            dsimp only at h
            rcases hr : runFields input rest (data ++ [(fs.name, v)]) errs with ⟨evs', r⟩
            rw [hr] at h
            dsimp only at h
            rw [Prod.mk.injEq] at h
            obtain ⟨new, hnew, hkeys⟩ := ih (data ++ [(fs.name, v)]) errs evs' data' errs' (by rw [hr, ← h.2])
            refine ⟨(fs.name, v) :: new, by simp [hnew], ?_⟩
            intro k hk
            simp only [List.map_cons, List.mem_cons] at hk ⊢
            rcases hk with hk | hk
            · exact Or.inl hk
            · exact Or.inr (hkeys k hk)
        | err e =>
            dsimp only at h
            rcases hr : runFields input rest data (errs ++ [e]) with ⟨evs', r⟩
            rw [hr] at h
            dsimp only at h
            rw [Prod.mk.injEq] at h
            obtain ⟨new, hnew, hkeys⟩ := ih data (errs ++ [e]) evs' data' errs' (by rw [hr, ← h.2])
            exact ⟨new, hnew, fun k hk => List.mem_cons_of_mem _ (hkeys k hk)⟩
        | uncaught m =>
            dsimp only at h
            rw [Prod.mk.injEq] at h
            exact absurd h.2 (by simp)

/-- A field absent from the input whose spec has a default ends up holding
exactly that default in the produced data. -/
theorem runFields_default_stored (input : List (String × Raw)) :
    ∀ (fields : List FieldSpec) (data : List (String × Raw)) (errs : List VError)
      (evs : List Event) (data' : List (String × Raw)) (errs' : List VError)
      (fs : FieldSpec) (d : Raw),
      runFields input fields data errs = (evs, .inl (data', errs')) →
      fs ∈ fields →
      lookupRaw input fs.name = none →
      fs.default = some d →
      (fields.map FieldSpec.name).Nodup →
      fs.name ∉ data.map Prod.fst →
      lookupRaw data' fs.name = some d := by
  intro fields
  induction fields with
  | nil =>
      intro data errs evs data' errs' fs d h hmem
      simp at hmem
  | cons f rest ih =>
      intro data errs evs data' errs' fs d h hmem habs hdef hnodup hdata
      simp only [runFields] at h
      simp only [List.map_cons, List.nodup_cons] at hnodup
      rcases List.mem_cons.mp hmem with heq | hmem'
      · subst heq
        rw [habs] at h
        dsimp only at h
        rw [hdef] at h
        dsimp only at h
        obtain ⟨new, hnew, hkeys⟩ := runFields_data input rest _ _ _ _ _ h
        have hfs_not_new : fs.name ∉ new.map Prod.fst := fun hmem2 =>
          hnodup.1 (hkeys _ hmem2)
        rw [hnew, List.append_assoc,
          lookupRaw_append_none _ _ _ (lookupRaw_none_of_not_mem _ _ hdata)]
        simp [lookupRaw]
      · have hne : f.name ≠ fs.name := by
          intro hcontr
          exact hnodup.1 (hcontr ▸ List.mem_map.mpr ⟨fs, hmem', rfl⟩)
        rcases hl : lookupRaw input f.name with _ | raw
        · rw [hl] at h
          dsimp only at h
          rcases hd : f.default with _ | d0
          · rw [hd] at h
            dsimp only at h
            exact ih data _ evs data' errs' fs d h hmem' habs hdef hnodup.2 hdata
          · rw [hd] at h
            dsimp only at h
            refine ih (data ++ [(f.name, d0)]) errs evs data' errs' fs d h hmem'
              habs hdef hnodup.2 ?_
            simp only [List.map_append, List.mem_append, List.map_cons,
              List.map_nil, List.mem_singleton]
            push_neg
            exact ⟨hdata, fun hc => hne hc.symm⟩
        · rw [hl] at h
          dsimp only at h
          rcases hv : validateField f data raw with ⟨evs0, out⟩
          rw [hv] at h
          cases out with
          | ok v =>
              dsimp only at h
              rcases hr : runFields input rest (data ++ [(f.name, v)]) errs with ⟨evs2, r⟩
              rw [hr] at h
              dsimp only at h
              rw [Prod.mk.injEq] at h
              refine ih (data ++ [(f.name, v)]) errs evs2 data' errs' fs d
                (by rw [hr, ← h.2]) hmem' habs hdef hnodup.2 ?_
              simp only [List.map_append, List.mem_append, List.map_cons,
                List.map_nil, List.mem_singleton]
              push_neg
              exact ⟨hdata, fun hc => hne hc.symm⟩
          | err e =>
              dsimp only at h
              rcases hr : runFields input rest data (errs ++ [e]) with ⟨evs2, r⟩
              rw [hr] at h
              dsimp only at h
              rw [Prod.mk.injEq] at h
              exact ih data (errs ++ [e]) evs2 data' errs' fs d
                (by rw [hr, ← h.2]) hmem' habs hdef hnodup.2 hdata
          | uncaught m =>
              dsimp only at h
              rw [Prod.mk.injEq] at h
              exact absurd h.2 (by simp)

/-- Construction's trace is the field loop's trace. -/
theorem validateModel_trace (fields : List FieldSpec)
    (input : List (String × Raw)) :
    (validateModel fields input).1 = (runFields input fields [] []).1 := by
  unfold validateModel
  rcases hr : runFields input fields [] [] with ⟨evs, r⟩
  cases r with
  | inl p =>
      rcases p with ⟨data, errs⟩
      cases errs <;> simp
  | inr m => simp

/-- On success, a defaulted absent field holds its default in the built
instance. -/
theorem validateModel_default_stored (fields : List FieldSpec)
    (input : List (String × Raw)) (fs : FieldSpec) (d : Raw)
    (inst : List (String × Raw))
    (hok : (validateModel fields input).2 = .ok inst)
    (hmem : fs ∈ fields) (habs : lookupRaw input fs.name = none)
    (hdef : fs.default = some d)
    (hnodup : (fields.map FieldSpec.name).Nodup) :
    lookupRaw inst fs.name = some d := by
  unfold validateModel at hok
  rcases hr : runFields input fields [] [] with ⟨evs, r⟩
  rw [hr] at hok
  cases r with
  | inl p =>
      rcases p with ⟨data, errs⟩
      cases errs with
      | nil =>
          dsimp only at hok
          rw [ModelOut.ok.injEq] at hok
          subst hok
          exact runFields_default_stored input fields [] [] evs data [] fs d hr
            hmem habs hdef hnodup (by simp)
      | cons e es =>
          dsimp only at hok
          exact absurd hok (by simp)
  | inr m =>
      dsimp only at hok
      exact absurd hok (by simp)

/-- No trace event belongs to a field that was not supplied in the input. -/
theorem validateModel_absent_no_events (fields : List FieldSpec)
    (input : List (String × Raw)) (fs : FieldSpec)
    (hmem : fs ∈ fields) (habs : lookupRaw input fs.name = none) :
    ∀ e ∈ (validateModel fields input).1, evFieldName e ≠ fs.name := by
  intro e he hcontr
  rw [validateModel_trace] at he
  obtain ⟨f, hf, hsome, hev⟩ := runFields_events input fields [] [] e he
  rw [hcontr] at hev
  rw [← hev] at hsome
  rw [habs] at hsome
  simp at hsome

/-- The events list is additive for the before-hook call count. -/
theorem countBefore_append (l1 l2 : List Event) (f hn : String) :
    countBefore (l1 ++ l2) f hn = countBefore l1 f hn + countBefore l2 f hn := by
  simp [countBefore, List.filter_append]

/-- The empty trace counts zero. -/
theorem countBefore_nil (f hn : String) : countBefore [] f hn = 0 := rfl

/-- Peel one event off a before-hook call count. -/
theorem countBefore_cons (e : Event) (l : List Event) (f hn : String) :
    countBefore (e :: l) f hn =
      (if e = .beforeCall f hn then 1 else 0) + countBefore l f hn := by
  by_cases hc : e = Event.beforeCall f hn
  · simp [countBefore, List.filter_cons, hc, Nat.add_comm]
  · simp [countBefore, List.filter_cons, hc]

/-- A trace without the given before-hook call counts zero. -/
theorem countBefore_eq_zero (l : List Event) (f hn : String)
    (h : ∀ e ∈ l, e ≠ .beforeCall f hn) : countBefore l f hn = 0 := by
  unfold countBefore
  rw [List.length_eq_zero, List.filter_eq_nil]
  intro a ha
  simp [h a ha]

/-- A single-hook phase emits exactly its one call event. -/
theorem runHooks_single (field : String) (mk : String → Event) (hn : String)
    (h : Hook) (data : List (String × Raw)) (v : Raw) :
    (runHooks field mk [(hn, h)] data v).1 = [mk hn] := by
  cases hh : h v data <;> simp [runHooks, hh]

/-- A field with a single before-hook records exactly one call of it per
field validation, whatever the declared type, the hook outcome, or the
coercion result. -/
theorem validateField_before_once (fs : FieldSpec) (hn : String) (h : Hook)
    (data : List (String × Raw)) (raw : Raw)
    (hhooks : fs.beforeHooks = [(hn, h)]) :
    countBefore (validateField fs data raw).1 fs.name hn = 1 := by
  rw [validateField_eq_phases]
  unfold fieldPhases
  rw [hhooks]
  rcases h1 : runHooks fs.name (fun x => Event.beforeCall fs.name x)
      [(hn, h)] data raw with ⟨evs1, o1⟩
  have hevs1 : evs1 = [Event.beforeCall fs.name hn] := by
    have hs := runHooks_single fs.name (fun x => Event.beforeCall fs.name x) hn h data raw
    rw [h1] at hs
    exact hs
  subst hevs1
  cases o1 with
  | ok v1 =>
      cases h2 : coerce fs.type false v1 with
      | ok v2 =>
          rcases h3 : runHooks fs.name (fun x => Event.afterCall fs.name x)
              fs.afterHooks data v2 with ⟨evs3, o3⟩
          have hzero : countBefore evs3 fs.name hn = 0 := by
            refine countBefore_eq_zero _ _ _ fun e he => ?_
            obtain ⟨hn', rfl⟩ := runHooks_events_shape fs.name
              (fun x => Event.afterCall fs.name x) fs.afterHooks data v2 e
              (by rw [h3]; exact he)
            simp
          cases o3 <;>
            (simp only [h2, h3]
             simp [countBefore_append, countBefore_cons, countBefore_nil, hzero])
      | error e =>
          simp only [h2]
          simp [countBefore_append, countBefore_cons, countBefore_nil]
  | err e => simp [countBefore]
  | uncaught m => simp [countBefore]

/-- Single-field, supplied input: the model trace is the field trace. -/
theorem runFields_single_trace (input : List (String × Raw)) (fs : FieldSpec)
    (raw : Raw) (hsup : lookupRaw input fs.name = some raw) :
    (runFields input [fs] [] []).1 = (validateField fs [] raw).1 := by
  simp only [runFields, hsup]
  rcases hv : validateField fs [] raw with ⟨evs, out⟩
  cases out <;> simp [runFields]

/-- A single-before-hook field of a one-field model has its hook called
exactly once per construction with the field supplied — also when the
declared type is a collection whose elements are coerced one by one. -/
theorem validateModel_before_once (fs : FieldSpec) (hn : String) (h : Hook)
    (input : List (String × Raw)) (raw : Raw)
    (hhooks : fs.beforeHooks = [(hn, h)])
    (hsup : lookupRaw input fs.name = some raw) :
    countBefore (validateModel [fs] input).1 fs.name hn = 1 := by
  rw [validateModel_trace, runFields_single_trace input fs raw hsup]
  exact validateField_before_once fs hn h [] raw hhooks

/-- Element-wise integer coercion succeeds when every element coerces. -/
theorem coerceIntList_ok (strict : Bool) (xs : List Raw)
    (h : ∀ x ∈ xs, ∃ y, coerceInt strict x = .ok y) :
    ∃ ys, coerceIntList strict xs = .ok ys := by
  induction xs with
  | nil => exact ⟨[], rfl⟩
  | cons x rest ih =>
      obtain ⟨y, hy⟩ := h x (List.mem_cons_self _ _)
      obtain ⟨ys, hys⟩ := ih fun x hx => h x (List.mem_cons_of_mem _ hx)
      exact ⟨y :: ys, by simp only [coerceIntList, hy, hys]; rfl⟩

/-- Assigning any integer to `c` of the fixture model succeeds and stores
the doubled value, per `double_c`. -/
theorem assign_c_doubles (inst : List (String × Raw)) (n : Int) :
    assignField vaModel inst "c" (.int n) =
      (.ok, setField inst "c" (.int (n * 2))) := by
  have hspec : findSpec vaModel "c" =
      some ⟨"c", .tInt, some (.int 0), [], [("double_c", double_c)]⟩ := rfl
  have hval : validateField ⟨"c", FType.tInt, some (.int 0), [], [("double_c", double_c)]⟩
      (inst.filter fun p => !(p.1 == "c")) (.int n) =
      ([.coerceCall "c", .afterCall "c" "double_c"], .ok (.int (n * 2))) := rfl
  unfold assignField
  rw [hspec]
  dsimp only
  rw [hval]
  dsimp only
  rw [setField_setField]

/-! Claim theorems. -/

/-- C1: one validation call runs a field's phases in the order
before-hooks, then type coercion, then after-hooks, each phase receiving
the previous phase's output (the state machine equals the phase
composition); for the `List[int]` field of `test_validate_whole`, input
`a=[1, 2]` validates to `[1, 2, 123, 456]`; the second
`test_validate_pre_error` run shows the after-hook consuming the
before-hook's mutated, coerced output; and when a before-hook fails, the
field stops with that failure, running neither coercion nor after-hooks. -/
theorem C1_phase_order :
    (∀ fs data raw, validateField fs data raw = fieldPhases fs data raw) ∧
    validateModel wholeModel [("a", .seq [.int 1, .int 2])] =
      ([.beforeCall "a" "check_a1", .coerceCall "a", .afterCall "a" "check_a2"],
       .ok [("a", .seq [.int 1, .int 2, .int 123, .int 456])]) ∧
    validateModel preModel [("a", .seq [.int 5, .int 10])] =
      ([.beforeCall "a" "check_a1", .coerceCall "a", .afterCall "a" "check_a2"],
       .errs [valueError "a" "a2 broken" (.seq [.int 6, .int 10])]) ∧
    (∀ fs data raw evs e,
      runHooks fs.name (fun hn => Event.beforeCall fs.name hn)
          fs.beforeHooks data raw = (evs, .err e) →
      validateField fs data raw = (evs, .err e) ∧
        (∀ f, Event.coerceCall f ∉ evs) ∧
        (∀ f hn, Event.afterCall f hn ∉ evs)) ∧
    validateModel preModel [("a", .seq [.int 1, .int 3])] =
      ([.beforeCall "a" "check_a1"],
       .errs [valueError "a" "a1 broken" (.seq [.int 1, .int 3])]) :=
  ⟨validateField_eq_phases, rfl, rfl,
   fun fs data raw evs e h => validateField_before_fail fs data raw evs e h, rfl⟩

/-- C1 witness: the failing before-hook of `test_validate_pre_error` on
`a=[1, 3]` stops the field with the `a1 broken` error and a trace holding
only that hook's call. -/
theorem C1_phase_order_witness :
    validateField ⟨"a", FType.tListInt, none, [("check_a1", check_a1_pre)],
        [("check_a2", check_a2_pre)]⟩ [] (.seq [.int 1, .int 3]) =
      ([.beforeCall "a" "check_a1"],
       .err (valueError "a" "a1 broken" (.seq [.int 1, .int 3]))) :=
  (C1_phase_order.2.2.2.1 _ [] _ _ _ rfl).1

/-- C2: for a single non-strict `int` field, a bool coerces to 0/1 and an
int passes through; the string "snap" yields exactly one `int_parsing`
error at path ("a",); the float 4.5 yields exactly one `int_from_float`
error; and NaN/Infinity (the overflowing literal 2.2250738585072011e308
already reaches the coercer as Infinity) yield exactly one
`finite_number` error, with the coercer rejecting them under both
strictness settings. -/
theorem C2_int_coercion :
    (∀ b : Bool, validateModel intModel [("a", .bool b)] =
      ([.coerceCall "a"], .ok [("a", .int (if b then 1 else 0))])) ∧
    (∀ n : Int, validateModel intModel [("a", .int n)] =
      ([.coerceCall "a"], .ok [("a", .int n)])) ∧
    validateModel intModel [("a", .str "snap")] =
      ([.coerceCall "a"],
       .errs [⟨"int_parsing", ["a"],
         "Input should be a valid integer, unable to parse string as an integer",
         .str "snap", none⟩]) ∧
    validateModel intModel [("a", .float (.finite 9 2))] =
      ([.coerceCall "a"],
       .errs [⟨"int_from_float", ["a"],
         "Input should be a valid integer, got a number with a fractional part",
         .float (.finite 9 2), none⟩]) ∧
    (∀ (strict : Bool) (f : FVal), (f = .nan ∨ f = .inf ∨ f = .ninf) →
      coerceInt strict (.float f) =
        .error ⟨"finite_number", "Input should be a finite number", .float f⟩) ∧
    (∀ f : FVal, (f = .nan ∨ f = .inf ∨ f = .ninf) →
      validateModel intModel [("a", .float f)] =
        ([.coerceCall "a"],
         .errs [⟨"finite_number", ["a"], "Input should be a finite number",
           .float f, none⟩])) := by
  refine ⟨fun b => by cases b <;> rfl, fun n => rfl, rfl, rfl, ?_, ?_⟩
  · intro strict f h
    rcases h with rfl | rfl | rfl <;> cases strict <;> rfl
  · intro f h
    rcases h with rfl | rfl | rfl <;> rfl

/-- C2 witness: NaN rejected by the strict and non-strict coercer and by
the model with the single `finite_number` error. -/
theorem C2_int_coercion_witness :
    coerceInt true (.float .nan) =
      .error ⟨"finite_number", "Input should be a finite number", .float .nan⟩ ∧
    validateModel intModel [("a", .float .nan)] =
      ([.coerceCall "a"],
       .errs [⟨"finite_number", ["a"], "Input should be a finite number",
         .float .nan, none⟩]) :=
  ⟨C2_int_coercion.2.2.2.2.1 true .nan (Or.inl rfl),
   C2_int_coercion.2.2.2.2.2 .nan (Or.inl rfl)⟩

/-- C3: the custom hook of `test_simple` raising
ValueError('"foobar" not found in a') makes `a='snap'` fail with exactly
one `value_error` at path ("a",), input 'snap', ctx.error holding the
hook's message and msg embedding it; while any value containing 'foobar'
passes through unchanged. -/
theorem C3_custom_hook_value_error :
    validateModel fooModel [("a", .str "snap")] =
      ([.coerceCall "a", .afterCall "a" "check_a"],
       .errs [⟨"value_error", ["a"], "Value error, \"foobar\" not found in a",
         .str "snap", some "\"foobar\" not found in a"⟩]) ∧
    (∀ s : String, strContains s "foobar" = true →
      validateModel fooModel [("a", .str s)] =
        ([.coerceCall "a", .afterCall "a" "check_a"], .ok [("a", .str s)])) := by
  refine ⟨rfl, fun s h => ?_⟩
  simp [validateModel, runFields, validateField, fieldRun, fieldStep, runHooks,
    coerce, coerceStr, check_a_foobar, lookupRaw, h, fooModel]

/-- C3 witness: the passing value of `test_simple` is kept unchanged. -/
theorem C3_custom_hook_value_error_witness :
    validateModel fooModel [("a", .str "this is foobar good")] =
      ([.coerceCall "a", .afterCall "a" "check_a"],
       .ok [("a", .str "this is foobar good")]) :=
  C3_custom_hook_value_error.2 "this is foobar good" rfl

/-- None of the asserting model's hooks ever raises a non-domain fault. -/
theorem assertModel_no_fault : ∀ fs ∈ assertModel, SpecNoFault fs := by
  intro fs hfs
  simp only [assertModel, List.mem_singleton] at hfs
  subst hfs
  constructor
  · intro p hp
    simp at hp
  · intro p hp v d m
    simp only [List.mem_singleton] at hp
    subst hp
    cases v <;> simp only [check_a_assert] <;> try simp
    split <;> simp

/-- C4 counterexample: per
`test_exceptions_in_field_validators_restore_original_field_value`, a
RuntimeError raised inside the hook is NOT caught and folded: the
assignment's outcome is the uncaught fault 'test error' propagating past
the pipeline boundary (the instance's prior value being restored),
refuting the claim that no hook-raised fault ever escapes. -/
theorem C4_counterexample :
    assignField rtModel [("foo", .str "foo")] "foo" (.str "raise_exception") =
      (.uncaught "test error", [("foo", .str "foo")]) ∧
    validateModel rtModel [("foo", .str "raise_exception")] =
      ([.coerceCall "foo", .afterCall "foo" "validate_foo"],
       .uncaught "test error") := ⟨rfl, rfl⟩

/-- C4 (amended): a ValueError or AssertionError raised inside a hook is
caught, tagged value_error / assertion_error and folded into the
aggregate — for hook sets raising only those, no fault ever escapes
construction or assignment-revalidation — but any other exception
(e.g. RuntimeError) propagates uncaught past the pipeline boundary,
during construction and during assignment, with the instance's prior
value restored. -/
theorem C4_fault_handling :
    (∀ fields input, (∀ fs ∈ fields, SpecNoFault fs) →
      ∀ m, (validateModel fields input).2 ≠ .uncaught m) ∧
    (∀ fields inst k raw, (∀ fs ∈ fields, SpecNoFault fs) →
      ∀ m, (assignField fields inst k raw).1 ≠ .uncaught m) ∧
    validateModel assertModel [("a", .str "snap")] =
      ([.coerceCall "a", .afterCall "a" "check_a"],
       .errs [assertError "a" "invalid a" (.str "snap")]) ∧
    validateModel assertModel [("a", .str "a")] =
      ([.coerceCall "a", .afterCall "a" "check_a"], .ok [("a", .str "a")]) ∧
    assignField rtModel [("foo", .str "foo")] "foo" (.str "raise_exception") =
      (.uncaught "test error", [("foo", .str "foo")]) :=
  ⟨fun fields input h m => validateModel_no_fault fields input h m,
   fun fields inst k raw h m => assignField_no_fault fields inst k raw h m,
   rfl, rfl, rfl⟩

/-- C4 witness: the asserting model's validation and assignment never end
in an uncaught fault. -/
theorem C4_fault_handling_witness :
    (validateModel assertModel [("a", .str "snap")]).2 ≠ .uncaught "test error" ∧
    (assignField assertModel [("a", .str "a")] "a" (.str "snap")).1 ≠
      .uncaught "test error" :=
  ⟨C4_fault_handling.1 assertModel [("a", .str "snap")] assertModel_no_fault "test error",
   C4_fault_handling.2.1 assertModel [("a", .str "a")] "a" (.str "snap")
     assertModel_no_fault "test error"⟩

/-- C5: when an assignment under revalidate-on-assignment fails — the
hook rejects the value or faults — the instance's prior value is left
untouched and the failure is surfaced to the caller; concretely, the
fixture's `p.b = 'x'` fails with `b too short` and `b` keeps 'hello',
and the RuntimeError assignment leaves `foo` at 'foo'. -/
theorem C5_failed_assignment_restores :
    (∀ fields inst k raw, (assignField fields inst k raw).1 ≠ .ok →
      (assignField fields inst k raw).2 = inst) ∧
    assignField vaModel [("a", .int 4), ("b", .str "hello"), ("c", .int 0)]
        "b" (.str "x") =
      (.failed (valueError "b" "b too short" (.str "x")),
       [("a", .int 4), ("b", .str "hello"), ("c", .int 0)]) ∧
    (assignField rtModel [("foo", .str "foo")] "foo" (.str "raise_exception")).2 =
      [("foo", .str "foo")] :=
  ⟨fun fields inst k raw hne =>
      assignField_restore fields inst k raw _ _ rfl hne,
   rfl, rfl⟩

/-- C5 witness: the fixture's failing assignment leaves the instance
unchanged. -/
theorem C5_failed_assignment_restores_witness :
    (assignField vaModel [("a", .int 4), ("b", .str "hello"), ("c", .int 0)]
        "b" (.str "x")).2 =
      [("a", .int 4), ("b", .str "hello"), ("c", .int 0)] :=
  C5_failed_assignment_restores.1 vaModel
    [("a", .int 4), ("b", .str "hello"), ("c", .int 0)] "b" (.str "x")
    (fun hc => AssignOut.noConfusion hc)

/-- C6 counterexample: on the duplicate declaration of `test_duplicates`
(two validator functions named `duplicate_name`, not marked reusable),
the engine does NOT fail with a SchemaError as the claim states — per the
test it emits a duplicate-validator warning and compilation completes
with an effective registry — whereas the claim's spec-worded compiler
would reject it. -/
theorem C6_counterexample :
    compileStrictSpec dupDecls = .error "SchemaError" ∧
    registerValidators dupDecls =
      (["duplicate validator function duplicate_name"],
       [⟨"duplicate_name", "b", false⟩]) := ⟨rfl, rfl⟩

/-- C6 (amended): registering two hooks under the same identity without
allow_reuse emits a duplicate-validator warning — compilation still
completes, with the later function shadowing the earlier — instead of
failing with a SchemaError; with allow_reuse on both, the declaration is
legal, warning-free, and each hook takes effect on its field (both `x`
and `y` doubled in `test_reuse_global_validators`). -/
theorem C6_duplicate_validators :
    (∀ n f1 f2 : String,
      registerValidators [⟨n, f1, false⟩, ⟨n, f2, false⟩] =
        (["duplicate validator function " ++ n], [⟨n, f2, false⟩])) ∧
    (∀ n f1 f2 : String,
      registerValidators [⟨n, f1, true⟩, ⟨n, f2, true⟩] =
        ([], [⟨n, f1, true⟩, ⟨n, f2, true⟩])) ∧
    registerValidators reuseDecls = ([], reuseDecls) ∧
    validateModel reuseModel [("x", .int 1), ("y", .int 1)] =
      ([.coerceCall "x", .afterCall "x" "reusable_validator",
        .coerceCall "y", .afterCall "y" "reusable_validator"],
       .ok [("x", .int 2), ("y", .int 2)]) := by
  refine ⟨?_, ?_, rfl, rfl⟩
  · intro n f1 f2
    simp [registerValidators, registerAux]
  · intro n f1 f2
    simp [registerValidators, registerAux]

/-- C7: the non-strict frozenset coercer accepts any sequence or set
whose members coerce, returning the de-duplicated canonical set of the
coerced members — concretely the test's {1,2,3}, frozenset({1,2,3}),
[4,5], (6,) and {'1','2','3'} inputs — and rejects every other source
with exactly one `frozen_set_type` error. -/
theorem C7_frozenset_coercion :
    (∀ xs : List Raw, (∀ x ∈ xs, ∃ y, coerceInt false x = .ok y) →
      ∃ ys, coerceIntList false xs = .ok ys ∧
        coerce .tFrozenSetInt false (.seq xs) = .ok (.set (canonIntSet ys)) ∧
        coerce .tFrozenSetInt false (.set xs) = .ok (.set (canonIntSet ys))) ∧
    (∀ v : Raw, isSeqOrSet v = false →
      coerce .tFrozenSetInt false v =
        .error ⟨"frozen_set_type", "Input should be a valid frozenset", v⟩) ∧
    validateModel fsModel [("a", .set [.int 1, .int 2, .int 3])] =
      ([.coerceCall "a"], .ok [("a", .set [.int 1, .int 2, .int 3])]) ∧
    validateModel fsModel [("a", .seq [.int 4, .int 5])] =
      ([.coerceCall "a"], .ok [("a", .set [.int 4, .int 5])]) ∧
    validateModel fsModel [("a", .seq [.int 6])] =
      ([.coerceCall "a"], .ok [("a", .set [.int 6])]) ∧
    validateModel fsModel [("a", .set [.str "1", .str "2", .str "3"])] =
      ([.coerceCall "a"], .ok [("a", .set [.int 1, .int 2, .int 3])]) ∧
    validateModel fsModel [("a", .seq [.int 1, .int 1, .int 2])] =
      ([.coerceCall "a"], .ok [("a", .set [.int 1, .int 2])]) ∧
    validateModel fsModel [("a", .str "snap")] =
      ([.coerceCall "a"],
       .errs [⟨"frozen_set_type", ["a"], "Input should be a valid frozenset",
         .str "snap", none⟩]) := by
  refine ⟨?_, ?_, rfl, rfl, rfl, rfl, rfl, rfl⟩
  · intro xs h
    obtain ⟨ys, hys⟩ := coerceIntList_ok false xs h
    refine ⟨ys, hys, ?_, ?_⟩
    · simp only [coerce, coerceFrozenSetInt, hys]
      rfl
    · simp only [coerce, coerceFrozenSetInt, hys]
      rfl
  · intro v h
    cases v <;> first | rfl | simp [isSeqOrSet] at h

/-- C7 witness: a string is no acceptable source for the frozenset
coercer. -/
theorem C7_frozenset_coercion_witness :
    coerce .tFrozenSetInt false (.str "snap") =
      .error ⟨"frozen_set_type", "Input should be a valid frozenset",
        .str "snap"⟩ :=
  C7_frozenset_coercion.2.1 (.str "snap") rfl

/-- C8: a generic subtype's field list is the supertype's list (with the
parent binding applied) with subtype-only fields appended; binding the
remaining variables of `ChildClass[str, int]` (TypeY to str, TypeZ to
int) compiles to fields `x : int`, `y : str`, `z : int` in that order,
and constructing with `x=1, y='y', z=3` succeeds with field order
`x, y, z`. -/
theorem C8_generic_inheritance :
    (∀ (base : GenModel) (parentArgs : List FType) (ownParams : List String)
        (ownFields : List (String × FType)),
      (inheritGen base parentArgs ownParams ownFields).fields.map Prod.fst =
        base.fields.map Prod.fst ++ ownFields.map Prod.fst) ∧
    bindGen childClass [.tStr, .tInt] =
      [⟨"x", .tInt, none, [], []⟩, ⟨"y", .tStr, none, [], []⟩,
       ⟨"z", .tInt, none, [], []⟩] ∧
    (bindGen childClass [.tStr, .tInt]).map FieldSpec.name = ["x", "y", "z"] ∧
    validateModel (bindGen childClass [.tStr, .tInt])
        [("x", .int 1), ("y", .str "y"), ("z", .int 3)] =
      ([.coerceCall "x", .coerceCall "y", .coerceCall "z"],
       .ok [("x", .int 1), ("y", .str "y"), ("z", .int 3)]) := by
  refine ⟨?_, rfl, rfl, rfl⟩
  intro base parentArgs ownParams ownFields
  simp [inheritGen, List.map_map, Function.comp]

/-- C9: with validate_assignment on and the after-hook `double_c`
returning `v * 2`, construction with `c=2` stores 4; assigning any `n`
to `c` re-runs the hook and stores `2n`; and two sequential assignments
compound the doubling so the stored value quadruples. -/
theorem C9_assignment_doubling :
    validateModel vaModel [("b", .str "hello"), ("c", .int 2)] =
      ([.coerceCall "b", .afterCall "b" "b_length",
        .coerceCall "c", .afterCall "c" "double_c"],
       .ok [("a", .int 4), ("b", .str "hello"), ("c", .int 4)]) ∧
    (∀ (inst : List (String × Raw)) (n : Int),
      assignField vaModel inst "c" (.int n) =
        (.ok, setField inst "c" (.int (n * 2)))) ∧
    (∀ (inst : List (String × Raw)) (n : Int),
      lookupRaw ((assignField vaModel inst "c" (.int n)).2) "c" =
        some (.int (n * 2)) ∧
      lookupRaw ((assignField vaModel
          ((assignField vaModel inst "c" (.int n)).2) "c" (.int (n * 2))).2) "c" =
        some (.int (4 * n))) ∧
    (assignField vaModel [("a", .int 4), ("b", .str "hello"), ("c", .int 0)]
        "c" (.int 3)).2 =
      [("a", .int 4), ("b", .str "hello"), ("c", .int 6)] := by
  refine ⟨rfl, assign_c_doubles, ?_, rfl⟩
  intro inst n
  constructor
  · rw [assign_c_doubles]
    exact lookupRaw_setField inst "c" (.int (n * 2))
  · rw [assign_c_doubles, assign_c_doubles]
    have harith : n * 2 * 2 = 4 * n := by ring
    rw [harith]
    exact lookupRaw_setField _ "c" (.int (4 * n))

/-- C10: a field with a declared default that is absent from the input
has none of its hooks invoked (no trace event belongs to it) and the
default is stored without validation; a supplied field's single
before-hook is invoked exactly once per validation call, even when the
declared type is a collection coerced element-wise — concretely
`test_validate_not_always` and `test_pre_called_once`. -/
theorem C10_default_skip_and_single_call :
    (∀ fields input (fs : FieldSpec) (d : Raw) inst,
      (validateModel fields input).2 = .ok inst →
      fs ∈ fields →
      lookupRaw input fs.name = none →
      fs.default = some d →
      (fields.map FieldSpec.name).Nodup →
      lookupRaw inst fs.name = some d) ∧
    (∀ fields input (fs : FieldSpec),
      fs ∈ fields →
      lookupRaw input fs.name = none →
      ∀ e ∈ (validateModel fields input).1, evFieldName e ≠ fs.name) ∧
    (∀ (fs : FieldSpec) (hn : String) (h : Hook) data raw,
      fs.beforeHooks = [(hn, h)] →
      countBefore (validateField fs data raw).1 fs.name hn = 1) ∧
    (∀ (fs : FieldSpec) (hn : String) (h : Hook) input raw,
      fs.beforeHooks = [(hn, h)] →
      lookupRaw input fs.name = some raw →
      countBefore (validateModel [fs] input).1 fs.name hn = 1) ∧
    validateModel notAlwaysModel [] = ([], .ok [("a", .null)]) ∧
    validateModel notAlwaysModel [("a", .str "y")] =
      ([.beforeCall "a" "check_a", .coerceCall "a"], .ok [("a", .str "y")]) ∧
    validateModel preOnceModel [("a", .seq [.str "1", .str "2", .str "3"])] =
      ([.beforeCall "a" "check_a", .coerceCall "a"],
       .ok [("a", .seq [.int 1, .int 2, .int 3])]) :=
  ⟨fun fields input fs d inst hok hmem habs hdef hnodup =>
      validateModel_default_stored fields input fs d inst hok hmem habs hdef hnodup,
   fun fields input fs hmem habs =>
      validateModel_absent_no_events fields input fs hmem habs,
   fun fs hn h data raw hhooks =>
      validateField_before_once fs hn h data raw hhooks,
   fun fs hn h input raw hhooks hsup =>
      validateModel_before_once fs hn h input raw hhooks hsup,
   rfl, rfl, rfl⟩

/-- C10 witness: the tuple-typed field of `test_pre_called_once` has its
before-hook called exactly once. -/
theorem C10_default_skip_and_single_call_witness :
    countBefore (validateModel
      [⟨"a", FType.tTupleInt3, none, [("check_a", check_a_count)], []⟩]
      [("a", .seq [.str "1", .str "2", .str "3"])]).1 "a" "check_a" = 1 :=
  C10_default_skip_and_single_call.2.2.2.1
    ⟨"a", FType.tTupleInt3, none, [("check_a", check_a_count)], []⟩
    "check_a" check_a_count [("a", .seq [.str "1", .str "2", .str "3"])]
    (.seq [.str "1", .str "2", .str "3"]) rfl rfl

end Spec2Proof

